import Mathlib

/-!
Shallow embedding of `micromouse_floodfill.py` (class `MicromouseFloodfill`).

Coordinates are integers (Python ints); the per-cell wall bitmask is a natural
number with North=1, East=2, South=4, West=8 (bit i for direction i); flood
values live in `WithTop ℕ`, with `⊤` playing the role of `float('inf')`.
The mutable object state is a `Mouse` structure; methods become functions
`Mouse → ... → Mouse`.  Simulator queries consumed by one loop iteration are
gathered in a `CycleInput`; actuator commands that move or rotate the robot
(`moveForward`, `turnRight`, `turnLeft`) are recorded in an output trace.
-/

namespace Micromouse

/-- Cells are integer coordinate pairs, matching the Python `(x, y)` tuples. -/
abbrev Cell := ℤ × ℤ

/-- Robot phase, matching the string field `self.phase`:
`"explore"` or `"speed_run"`. -/
inductive Phase where
  | explore
  | speed_run
  deriving DecidableEq

/-- Motion commands sent to the simulator (`API.moveForward`, `API.turnRight`,
`API.turnLeft`).  Display-only commands (`setColor`, `setText`, `setWall`, ...)
are not part of the recorded trace. -/
inductive Cmd where
  | moveForward
  | turnRight
  | turnLeft
  deriving DecidableEq

/-- How one iteration of the `while True:` loop in `run` ends:
`continueRun` models `continue` / falling through to the next iteration,
the other three model the three `break` sites (speed run complete,
`best_direction is None`, step count exceeded). -/
inductive Outcome where
  | continueRun
  | speedComplete
  | noValidMoves
  | maxStepsReached
  deriving DecidableEq

/-- Simulator responses consumed by one navigation cycle: the `wasReset`
query and the four relative wall sensors read by `scan_walls`. -/
structure CycleInput where
  wasReset : Bool
  wallFront : Bool
  wallRight : Bool
  wallBack : Bool
  wallLeft : Bool
  deriving DecidableEq

/-- The mutable state of a `MicromouseFloodfill` object. -/
structure Mouse where
  width : ℤ
  height : ℤ
  x : ℤ
  y : ℤ
  direction : Fin 4
  walls : Cell → ℕ
  flood_values : Cell → WithTop ℕ
  goals : List Cell
  phase : Phase
  visited : Finset Cell

/-- Python `get_direction_offset`: the table
`offsets = [(0, 1), (1, 0), (0, -1), (-1, 0)]` indexed by direction. -/
def get_direction_offset (d : Fin 4) : ℤ × ℤ :=
  match d with
  | ⟨0, _⟩ => (0, 1)
  | ⟨1, _⟩ => (1, 0)
  | ⟨2, _⟩ => (0, -1)
  | ⟨3, _⟩ => (-1, 0)

/-- The neighbor of a cell one step in direction `d`
(`x + dx, y + dy` in the Python code). -/
def nbr (c : Cell) (d : Fin 4) : Cell :=
  (c.1 + (get_direction_offset d).1, c.2 + (get_direction_offset d).2)

/-- Python `get_direction_bit`: `1 << direction`. -/
def get_direction_bit (d : Fin 4) : ℕ := 1 <<< d.val

/-- In-bounds predicate `0 <= x < self.width and 0 <= y < self.height`. -/
abbrev inBounds (m : Mouse) (c : Cell) : Prop :=
  0 ≤ c.1 ∧ c.1 < m.width ∧ 0 ≤ c.2 ∧ c.2 < m.height

/-- Python `is_wall`: out-of-range coordinates count as walls, otherwise the
cell's bitmask is tested against the direction bit. -/
def is_wall (m : Mouse) (x y : ℤ) (d : Fin 4) : Bool :=
  if x < 0 ∨ m.width ≤ x ∨ y < 0 ∨ m.height ≤ y then true
  else m.walls (x, y) &&& get_direction_bit d != 0

/-- Python `set_wall`: inside bounds, OR the direction bit into the cell's
mask and, when the adjacent cell is also in bounds, OR the opposite bit
(`(direction + 2) % 4`) into the adjacent cell's mask.  Out-of-range
coordinates leave the state unchanged. -/
def set_wall (m : Mouse) (x y : ℤ) (d : Fin 4) : Mouse :=
  if 0 ≤ x ∧ x < m.width ∧ 0 ≤ y ∧ y < m.height then
    let w1 := Function.update m.walls (x, y) (m.walls (x, y) ||| get_direction_bit d)
    let adj := nbr (x, y) d
    if 0 ≤ adj.1 ∧ adj.1 < m.width ∧ 0 ≤ adj.2 ∧ adj.2 < m.height then
      { m with walls := Function.update w1 adj (w1 adj ||| get_direction_bit (d + 2)) }
    else
      { m with walls := w1 }
  else m

/-- The wall bits contributed by `initialize_boundaries` to one cell:
South (4) on row 0, North (1) on row `height-1`, West (8) on column 0,
East (2) on column `width-1`.  The four Python loops range over the grid, so
the contribution is restricted to in-bounds cells. -/
def boundaryBits (W H : ℤ) (c : Cell) : ℕ :=
  if 0 ≤ c.1 ∧ c.1 < W ∧ 0 ≤ c.2 ∧ c.2 < H then
    (if c.2 = 0 then 4 else 0) ||| (if c.2 = H - 1 then 1 else 0) |||
      (if c.1 = 0 then 8 else 0) ||| (if c.1 = W - 1 then 2 else 0)
  else 0

/-- Python `initialize_boundaries`, rendered extensionally: each grid cell's
mask gains its boundary bits. -/
def initialize_boundaries (W H : ℤ) (w : Cell → ℕ) : Cell → ℕ :=
  fun c => w c ||| boundaryBits W H c

/-- The goal list computed in `__init__` (and again in the reset branch of
`run`) from the parity of the maze dimensions. -/
def computeGoals (W H : ℤ) : List Cell :=
  let cx := W / 2
  let cy := H / 2
  if W % 2 = 0 ∧ H % 2 = 0 then
    [(cx - 1, cy - 1), (cx, cy - 1), (cx - 1, cy), (cx, cy)]
  else if W % 2 = 0 then [(cx - 1, cy), (cx, cy)]
  else if H % 2 = 0 then [(cx, cy - 1), (cx, cy)]
  else [(cx, cy)]

/-- The state built by `__init__` for a `width × height` maze: robot at
`(0, 0)` facing North, zeroed walls plus boundaries, flood values all `0`
(the Python lists are initialized with integer `0`), parity-derived goals,
phase `explore`, visited set `{(0, 0)}`. -/
def mkFresh (W H : ℤ) : Mouse :=
  { width := W
    height := H
    x := 0
    y := 0
    direction := 0
    walls := initialize_boundaries W H fun _ => 0
    flood_values := fun _ => 0
    goals := computeGoals W H
    phase := .explore
    visited := {((0 : ℤ), (0 : ℤ))} }

/-- The reset branch of `run` (after `ackReset`): position, heading, phase and
visited set return to their initial values, walls are rebuilt from scratch,
goals are recomputed — but `flood_values` is left untouched. -/
def resetState (m : Mouse) : Mouse :=
  { m with
    x := 0
    y := 0
    direction := 0
    phase := .explore
    visited := {((0 : ℤ), (0 : ℤ))}
    walls := initialize_boundaries m.width m.height fun _ => 0
    goals := computeGoals m.width m.height }

/-! ## Flood-fill engine -/

/-- The working state of `floodfill`: the distance table being filled in and
the FIFO `deque`. -/
structure FFState where
  flood : Cell → WithTop ℕ
  queue : List Cell

/-- The canonical direction enumeration `range(4)`. -/
def dirList : List (Fin 4) := [0, 1, 2, 3]

/-- The initial flood state: every distance `float('inf')`, then each goal
cell set to `0` and appended to the queue in insertion order. -/
def ffInit (G : List Cell) : FFState :=
  G.foldl (fun st g => ⟨Function.update st.flood g 0, st.queue ++ [g]⟩)
    ⟨fun _ => ⊤, []⟩

/-- The body of the inner `for direction in range(4)` loop of `floodfill`:
from dequeued cell `c` whose distance was read as `cur`, relax the neighbor
in direction `d` if no wall blocks it, it is in bounds, and its current
distance exceeds `cur + 1`; an updated neighbor is appended to the queue. -/
def ffRelax (m : Mouse) (c : Cell) (cur : WithTop ℕ) (st : FFState) (d : Fin 4) :
    FFState :=
  if is_wall m c.1 c.2 d then st
  else
    let n := nbr c d
    if 0 ≤ n.1 ∧ n.1 < m.width ∧ 0 ≤ n.2 ∧ n.2 < m.height ∧ cur + 1 < st.flood n then
      ⟨Function.update st.flood n (cur + 1), st.queue ++ [n]⟩
    else st

/-- One iteration of the `while queue:` loop: pop the front cell, read its
current distance, and relax its four neighbors in canonical order. -/
def ffStep (m : Mouse) (st : FFState) : FFState :=
  match st.queue with
  | [] => st
  | c :: rest => (dirList.foldl (ffRelax m c (st.flood c)) ⟨st.flood, rest⟩)

/-- The `while queue:` loop, run with explicit fuel; it stops as soon as the
queue is empty (the fuel is a formal device — the loop is proved to empty
the queue for some fuel, after which extra fuel changes nothing). -/
def ffRun (m : Mouse) : ℕ → FFState → FFState
  | 0, st => st
  | fuel + 1, st => if st.queue = [] then st else ffRun m fuel (ffStep m st)

/-- Default fuel used when `floodfill` is invoked inside a navigation cycle. -/
def ffFuel (m : Mouse) : ℕ :=
  (m.width.toNat * m.height.toNat + 2) * (m.width.toNat * m.height.toNat + 2)

/-- Python `floodfill`: recompute the whole distance table from the current
goal list (the concluding `display_flood_values` call is display-only). -/
def floodfill (m : Mouse) : Mouse :=
  { m with flood_values := (ffRun m (ffFuel m) (ffInit m.goals)).flood }

/-! ## Navigation -/

/-- Python `scan_walls`: the four relative sensor readings, in the order
front, right, back, left, each registered (when a wall is seen) at the
absolute direction `(self.direction + i) % 4`. -/
def scan_walls (m : Mouse) (inp : CycleInput) : Mouse :=
  [((0 : Fin 4), inp.wallFront), (1, inp.wallRight), (2, inp.wallBack),
      (3, inp.wallLeft)].foldl
    (fun m' p => if p.2 then set_wall m' m'.x m'.y (m'.direction + p.1) else m') m

/-- Python `at_goal`: `(self.x, self.y) in self.goals`. -/
def at_goal (m : Mouse) : Bool := (m.x, m.y) ∈ m.goals

/-- The shared shape of the two move-selection loops in the code
(`get_best_direction`, and the inline exploration loop in `run`): scan the
four directions in canonical order, skip walls and out-of-bounds neighbors,
and keep the first direction attaining the strictly smallest score. -/
def selectDir (m : Mouse) (score : Cell → WithTop ℤ) : Option (Fin 4) :=
  (dirList.foldl
    (fun (acc : Option (Fin 4) × WithTop ℤ) d =>
      if is_wall m m.x m.y d then acc
      else
        let n := nbr (m.x, m.y) d
        if 0 ≤ n.1 ∧ n.1 < m.width ∧ 0 ≤ n.2 ∧ n.2 < m.height then
          if score n < acc.2 then (some d, score n) else acc
        else acc)
    (none, ⊤)).1

/-- Python `get_best_direction`: minimize the neighbor's flood value. -/
def get_best_direction (m : Mouse) : Option (Fin 4) :=
  selectDir m fun n => (m.flood_values n).map fun k : ℕ => (k : ℤ)

/-- The scoring used by the inline exploration loop in `run`: the neighbor's
flood value, lowered by 100 when the neighbor was never visited
(`float('inf')` is unaffected, as in Python float arithmetic). -/
def exploreScore (m : Mouse) (n : Cell) : WithTop ℤ :=
  (m.flood_values n).map fun k : ℕ => if n ∈ m.visited then (k : ℤ) else (k : ℤ) - 100

/-- The inline exploration-phase selection loop in `run`. -/
def exploreSelect (m : Mouse) : Option (Fin 4) := selectDir m (exploreScore m)

/-- Python `should_explore_more`.  The floating-point coverage thresholds
`len(visited) > w*h*0.7` and `len(visited) < w*h*0.9` are modelled as the
exact rational comparisons `10·|visited| > 7·w·h` and `10·|visited| < 9·w·h`
(no claim depends on these thresholds). -/
def should_explore_more (m : Mouse) : Bool :=
  if m.phase = .speed_run then false
  else if dirList.any (fun d =>
      !is_wall m m.x m.y d &&
        (decide (0 ≤ (nbr (m.x, m.y) d).1 ∧ (nbr (m.x, m.y) d).1 < m.width ∧
            0 ≤ (nbr (m.x, m.y) d).2 ∧ (nbr (m.x, m.y) d).2 < m.height) &&
          !decide (nbr (m.x, m.y) d ∈ m.visited))) then true
  else if at_goal m && decide (10 * m.visited.card > 7 * (m.width * m.height).toNat)
    then false
  else decide (10 * m.visited.card < 9 * (m.width * m.height).toNat)

/-- One pass of the body of the `while self.direction != target:` loop of
`turn_to_direction`, with fuel.  `diff = 1` turns right once, `diff = 3`
turns left once, `diff = 2` turns right twice; any other nonzero `diff`
(unreachable) would loop without progress, which the fuel cuts off. -/
def turnAux : ℕ → Fin 4 → Fin 4 → List Cmd → Fin 4 × List Cmd
  | 0, d, _, acc => (d, acc)
  | fuel + 1, d, t, acc =>
    if d = t then (d, acc)
    else
      let diff := t - d
      if diff = 1 then turnAux fuel (d + 1) t (acc ++ [.turnRight])
      else if diff = 3 then turnAux fuel (d - 1) t (acc ++ [.turnLeft])
      else if diff = 2 then turnAux fuel (d + 2) t (acc ++ [.turnRight, .turnRight])
      else turnAux fuel d t acc

/-- Python `turn_to_direction`, returning the new heading and the turn
commands issued.  The loop body reaches the target heading in at most one
pass, so fuel 4 is beyond what the `while` loop ever uses. -/
def turn_to_direction (d t : Fin 4) : Fin 4 × List Cmd := turnAux 4 d t []

/-- Python `move_forward`: issue `moveForward`, advance one cell along the
current heading, record the new cell as visited. -/
def move_forward (m : Mouse) : Mouse × List Cmd :=
  let n := nbr (m.x, m.y) m.direction
  ({ m with x := n.1, y := n.2, visited := insert n m.visited }, [.moveForward])

/-- The move chosen by the decision step of `run`: the inline
unvisited-biased loop while still exploring, `get_best_direction` otherwise. -/
def chooseDir (m2 : Mouse) : Option (Fin 4) :=
  if should_explore_more m2 && decide (m2.phase = .explore) then exploreSelect m2
  else get_best_direction m2

/-- One iteration of the `while True:` loop in `run`, from the point where
`step_count` has already been incremented to `sc`.  Returns the successor
state, how the iteration ended, and the motion commands issued. -/
def cycle (m : Mouse) (inp : CycleInput) (sc : ℕ) : Mouse × Outcome × List Cmd :=
  if inp.wasReset then (resetState m, .continueRun, [])
  else
    let m2 := floodfill (scan_walls m inp)
    if at_goal m2 then
      match m2.phase with
      | .explore =>
        ({ m2 with phase := .speed_run, goals := [((0 : ℤ), (0 : ℤ))] },
          .continueRun, [])
      | .speed_run => (m2, .speedComplete, [])
    else
      match chooseDir m2 with
      | some d =>
        let t := turn_to_direction m2.direction d
        let mv := move_forward { m2 with direction := t.1 }
        if sc > 10000 then (mv.1, .maxStepsReached, t.2 ++ mv.2)
        else (mv.1, .continueRun, t.2 ++ mv.2)
      | none => (m2, .noValidMoves, [])

/-- The `while True:` loop of `run`, driven by a list of per-cycle simulator
responses; `step_count += 1` precedes each cycle.  Returns the final state,
the final step count, and `some o` when the loop terminated with outcome `o`
(`none` when the supplied responses were exhausted first). -/
def runLoop : Mouse → List CycleInput → ℕ → Mouse × ℕ × Option Outcome
  | m, [], sc => (m, sc, none)
  | m, inp :: rest, sc =>
    let r := cycle m inp (sc + 1)
    match r.2.1 with
    | .continueRun => runLoop r.1 rest (sc + 1)
    | o => (r.1, sc + 1, some o)

/-! ## Basic facts about directions and walls -/

theorem nbr_ne_self (c : Cell) (d : Fin 4) : nbr c d ≠ c := by
  fin_cases d <;> simp [nbr, get_direction_offset, Prod.ext_iff] <;> omega

theorem get_direction_offset_opp (d : Fin 4) :
    get_direction_offset (d + 2) =
      (-(get_direction_offset d).1, -(get_direction_offset d).2) := by
  fin_cases d <;> rfl

theorem nbr_nbr_opp (c : Cell) (d : Fin 4) : nbr (nbr c d) (d + 2) = c := by
  simp [nbr, get_direction_offset_opp, Prod.ext_iff]

theorem nbr_inj (c c' : Cell) (d : Fin 4) (h : nbr c d = nbr c' d) : c = c' := by
  simpa [nbr, Prod.ext_iff] using h

theorem get_direction_bit_eq (d : Fin 4) : get_direction_bit d = 2 ^ d.val := by
  simp [get_direction_bit, Nat.shiftLeft_eq]

/-- The bitmask test of `is_wall` is a `testBit`. -/
theorem and_bit_ne_zero (w : ℕ) (d : Fin 4) :
    ((w &&& get_direction_bit d != 0) : Bool) = w.testBit d.val := by
  rw [get_direction_bit_eq, Nat.and_two_pow]
  cases h : w.testBit d.val <;> simp [h]

theorem is_wall_of_oob (m : Mouse) (x y : ℤ) (d : Fin 4)
    (h : x < 0 ∨ m.width ≤ x ∨ y < 0 ∨ m.height ≤ y) :
    is_wall m x y d = true := by
  unfold is_wall; rw [if_pos h]

theorem is_wall_inb (m : Mouse) (x y : ℤ) (d : Fin 4)
    (h : 0 ≤ x ∧ x < m.width ∧ 0 ≤ y ∧ y < m.height) :
    is_wall m x y d = (m.walls (x, y)).testBit d.val := by
  unfold is_wall
  rw [if_neg (by omega), and_bit_ne_zero]

theorem inb_of_is_wall_false (m : Mouse) (x y : ℤ) (d : Fin 4)
    (h : is_wall m x y d = false) :
    0 ≤ x ∧ x < m.width ∧ 0 ≤ y ∧ y < m.height := by
  by_contra hc
  rw [is_wall_of_oob m x y d (by omega)] at h
  simp at h

/-! ## C5: goal set from maze-center parity -/

/-- C5: for every maze with width `W ≥ 1` and height `H ≥ 1`, the goal list
built at startup has exactly 1 cell when both dimensions are odd, 2 cells
when exactly one is even, 4 cells when both are even; the cells are pairwise
distinct and lie in the center block
`[W/2 - 1, W/2] × [H/2 - 1, H/2]`; and for the 16×16 maze the goal list is
exactly `[(7,7), (8,7), (7,8), (8,8)]`. -/
theorem goals_center_parity (W H : ℤ) (hW : 1 ≤ W) (hH : 1 ≤ H) :
    (W % 2 ≠ 0 → H % 2 ≠ 0 → (computeGoals W H).length = 1) ∧
    (W % 2 = 0 → H % 2 ≠ 0 → (computeGoals W H).length = 2) ∧
    (W % 2 ≠ 0 → H % 2 = 0 → (computeGoals W H).length = 2) ∧
    (W % 2 = 0 → H % 2 = 0 → (computeGoals W H).length = 4) ∧
    (computeGoals W H).Nodup ∧
    (∀ g ∈ computeGoals W H,
      W / 2 - 1 ≤ g.1 ∧ g.1 ≤ W / 2 ∧ H / 2 - 1 ≤ g.2 ∧ g.2 ≤ H / 2) ∧
    computeGoals 16 16 = [(7, 7), (8, 7), (7, 8), (8, 8)] := by
  refine ⟨?_, ?_, ?_, ?_, ?_, ?_, by decide⟩
  · intro h1 h2; simp [computeGoals, h1, h2]
  · intro h1 h2; simp [computeGoals, h1, h2]
  · intro h1 h2; simp [computeGoals, h1, h2]
  · intro h1 h2; simp [computeGoals, h1, h2]
  · unfold computeGoals
    split_ifs <;> simp [Prod.ext_iff] <;> omega
  · intro g hg
    unfold computeGoals at hg
    split_ifs at hg <;> simp at hg <;>
      rcases hg with rfl | rfl | rfl | rfl <;> simp <;> omega

/-- Witness for `goals_center_parity` at the concrete 16×16 maze. -/
theorem goals_center_parity_witness :
    (1 : ℤ) ≤ 16 ∧ (1 : ℤ) ≤ 16 ∧
      ((16 : ℤ) % 2 = 0 → (16 : ℤ) % 2 = 0 → (computeGoals 16 16).length = 4) := by
  exact ⟨by decide, by decide, (goals_center_parity 16 16 (by decide) (by decide)).2.2.2.1⟩

/-! ## C4: orientation correctness -/

/-- Modelled from the spec (orientation algorithm): the turn commands
dictated by `diff = (target − current) mod 4`: `0` no turn, `1` one right
turn, `2` two right turns, `3` one left turn. -/
def turnCommandsSpec : Fin 4 → List Cmd
  | ⟨0, _⟩ => []
  | ⟨1, _⟩ => [.turnRight]
  | ⟨2, _⟩ => [.turnRight, .turnRight]
  | ⟨3, _⟩ => [.turnLeft]

/-- C4: for all 16 heading/target combinations, `turn_to_direction` ends
facing the target, and the issued commands are exactly those dictated by
`diff = (target − heading) mod 4` — in particular at most 2 turns. -/
theorem turn_to_direction_correct :
    ∀ h t : Fin 4,
      (turn_to_direction h t).1 = t ∧
      (turn_to_direction h t).2 = turnCommandsSpec (t - h) ∧
      (turn_to_direction h t).2.length ≤ 2 := by decide

/-! ## C9: out-of-range maze-model calls -/

/-- C9 counterexample: an out-of-range `set_wall` call is a silent no-op
(the state is returned unchanged), and the out-of-range `is_wall` call
silently answers `true` — neither fails fast. -/
theorem set_wall_oob_silent_noop :
    set_wall (mkFresh 2 2) (-1) 0 0 = mkFresh 2 2 ∧
      is_wall (mkFresh 2 2) (-1) 0 0 = true := by
  constructor
  · unfold set_wall; rw [if_neg (by decide)]
  · decide

/-- C9 amended: out-of-range coordinates are handled gracefully, not by
failing fast: `set_wall` leaves the state unchanged and `is_wall` reports a
wall. -/
theorem oob_calls_graceful (m : Mouse) (x y : ℤ) (d : Fin 4)
    (h : ¬(0 ≤ x ∧ x < m.width ∧ 0 ≤ y ∧ y < m.height)) :
    set_wall m x y d = m ∧ is_wall m x y d = true := by
  constructor
  · unfold set_wall; rw [if_neg h]
  · exact is_wall_of_oob m x y d (by omega)

/-- Witness for `oob_calls_graceful` at a concrete out-of-range call. -/
theorem oob_calls_graceful_witness :
    ¬(0 ≤ (-1 : ℤ) ∧ (-1 : ℤ) < (mkFresh 2 2).width ∧ 0 ≤ (0 : ℤ) ∧
        (0 : ℤ) < (mkFresh 2 2).height) ∧
      (set_wall (mkFresh 2 2) (-1) 0 1 = mkFresh 2 2 ∧
        is_wall (mkFresh 2 2) (-1) 0 1 = true) :=
  ⟨by decide, oob_calls_graceful (mkFresh 2 2) (-1) 0 1 (by decide)⟩

/-! ## C6: boundary walls -/

/-- Characterization of the wall bits set by `initialize_boundaries`. -/
theorem boundaryBits_testBit_iff (W H : ℤ) (c : Cell) (d : Fin 4) :
    (boundaryBits W H c).testBit d.val = true ↔
      ((0 ≤ c.1 ∧ c.1 < W ∧ 0 ≤ c.2 ∧ c.2 < H) ∧
        ((d.val = 2 ∧ c.2 = 0) ∨ (d.val = 0 ∧ c.2 = H - 1) ∨
          (d.val = 3 ∧ c.1 = 0) ∨ (d.val = 1 ∧ c.1 = W - 1))) := by
  unfold boundaryBits
  by_cases hin : 0 ≤ c.1 ∧ c.1 < W ∧ 0 ≤ c.2 ∧ c.2 < H
  · rw [if_pos hin]
    simp only [Nat.testBit_lor]
    fin_cases d <;> split_ifs <;> simp_all <;> decide
  · rw [if_neg hin]
    simp [hin]

/-- Fresh wall masks are the boundary bits alone. -/
theorem mkFresh_walls_testBit (W H : ℤ) (c : Cell) (d : Fin 4) :
    ((mkFresh W H).walls c).testBit d.val =
      (boundaryBits W H c).testBit d.val := by
  show ((initialize_boundaries W H fun _ => 0) c).testBit d.val = _
  simp [initialize_boundaries]

/-- C6: in the freshly initialized maze, `is_wall` answers `true` for any
out-of-bounds cell, and for any in-bounds cell whose neighbor in the queried
direction is out of bounds — every outward-facing boundary wall is set. -/
theorem boundary_is_wall_true (W H : ℤ) (x y : ℤ) (d : Fin 4) :
    (¬(0 ≤ x ∧ x < W ∧ 0 ≤ y ∧ y < H) → is_wall (mkFresh W H) x y d = true) ∧
      ((0 ≤ x ∧ x < W ∧ 0 ≤ y ∧ y < H) →
        ¬(0 ≤ (nbr (x, y) d).1 ∧ (nbr (x, y) d).1 < W ∧
            0 ≤ (nbr (x, y) d).2 ∧ (nbr (x, y) d).2 < H) →
        is_wall (mkFresh W H) x y d = true) := by
  constructor
  · intro h
    exact is_wall_of_oob _ _ _ _ (by show x < 0 ∨ W ≤ x ∨ y < 0 ∨ H ≤ y; omega)
  · intro hin hnb
    rw [is_wall_inb _ _ _ _ (by exact hin), mkFresh_walls_testBit,
      boundaryBits_testBit_iff]
    refine ⟨hin, ?_⟩
    fin_cases d <;> simp only [nbr, get_direction_offset] at hnb <;> simp <;> omega

/-- Witness for `boundary_is_wall_true`: in a fresh 2×2 maze the north wall
of `(1, 1)` (grid edge) is present, and the out-of-bounds cell `(2, 0)`
reports walls. -/
theorem boundary_is_wall_true_witness :
    (¬(0 ≤ (2 : ℤ) ∧ (2 : ℤ) < 2 ∧ 0 ≤ (0 : ℤ) ∧ (0 : ℤ) < 2) ∧
        is_wall (mkFresh 2 2) 2 0 0 = true) ∧
      ((0 ≤ (1 : ℤ) ∧ (1 : ℤ) < 2 ∧ 0 ≤ (1 : ℤ) ∧ (1 : ℤ) < 2) ∧
        ¬(0 ≤ (nbr (1, 1) 0).1 ∧ (nbr (1, 1) 0).1 < 2 ∧
            0 ≤ (nbr (1, 1) 0).2 ∧ (nbr (1, 1) 0).2 < 2) ∧
        is_wall (mkFresh 2 2) 1 1 0 = true) :=
  ⟨⟨by decide, (boundary_is_wall_true 2 2 2 0 0).1 (by decide)⟩,
    ⟨by decide, by decide, (boundary_is_wall_true 2 2 1 1 0).2 (by decide) (by decide)⟩⟩

/-! ## C2: wall symmetry -/

@[simp] theorem set_wall_width (m : Mouse) (x y : ℤ) (d : Fin 4) :
    (set_wall m x y d).width = m.width := by
  simp only [set_wall]; split_ifs <;> rfl

@[simp] theorem set_wall_height (m : Mouse) (x y : ℤ) (d : Fin 4) :
    (set_wall m x y d).height = m.height := by
  simp only [set_wall]; split_ifs <;> rfl

@[simp] theorem set_wall_x (m : Mouse) (x y : ℤ) (d : Fin 4) :
    (set_wall m x y d).x = m.x := by
  simp only [set_wall]; split_ifs <;> rfl

@[simp] theorem set_wall_y (m : Mouse) (x y : ℤ) (d : Fin 4) :
    (set_wall m x y d).y = m.y := by
  simp only [set_wall]; split_ifs <;> rfl

@[simp] theorem set_wall_direction (m : Mouse) (x y : ℤ) (d : Fin 4) :
    (set_wall m x y d).direction = m.direction := by
  simp only [set_wall]; split_ifs <;> rfl

@[simp] theorem set_wall_goals (m : Mouse) (x y : ℤ) (d : Fin 4) :
    (set_wall m x y d).goals = m.goals := by
  simp only [set_wall]; split_ifs <;> rfl

@[simp] theorem set_wall_phase (m : Mouse) (x y : ℤ) (d : Fin 4) :
    (set_wall m x y d).phase = m.phase := by
  simp only [set_wall]; split_ifs <;> rfl

@[simp] theorem set_wall_visited (m : Mouse) (x y : ℤ) (d : Fin 4) :
    (set_wall m x y d).visited = m.visited := by
  simp only [set_wall]; split_ifs <;> rfl

@[simp] theorem set_wall_flood (m : Mouse) (x y : ℤ) (d : Fin 4) :
    (set_wall m x y d).flood_values = m.flood_values := by
  simp only [set_wall]; split_ifs <;> rfl

/-- What `set_wall` does to each wall bit: the old bit survives, the
direction bit appears on the target cell when it is in bounds, and the
opposite bit appears on the in-bounds adjacent cell. -/
theorem set_wall_testBit_iff (m : Mouse) (x y : ℤ) (d : Fin 4) (c : Cell)
    (e : Fin 4) :
    ((set_wall m x y d).walls c).testBit e.val = true ↔
      ((m.walls c).testBit e.val = true ∨
        ((0 ≤ x ∧ x < m.width ∧ 0 ≤ y ∧ y < m.height) ∧ c = (x, y) ∧ e = d) ∨
        ((0 ≤ x ∧ x < m.width ∧ 0 ≤ y ∧ y < m.height) ∧
          (0 ≤ (nbr (x, y) d).1 ∧ (nbr (x, y) d).1 < m.width ∧
            0 ≤ (nbr (x, y) d).2 ∧ (nbr (x, y) d).2 < m.height) ∧
          c = nbr (x, y) d ∧ e = d + 2)) := by
  by_cases h1 : 0 ≤ x ∧ x < m.width ∧ 0 ≤ y ∧ y < m.height
  · by_cases h2 : 0 ≤ (nbr (x, y) d).1 ∧ (nbr (x, y) d).1 < m.width ∧
        0 ≤ (nbr (x, y) d).2 ∧ (nbr (x, y) d).2 < m.height
    · simp only [set_wall, if_pos h1, if_pos h2]
      by_cases hc2 : c = nbr (x, y) d
      · subst hc2
        rw [Function.update_same, Function.update_noteq (nbr_ne_self (x, y) d),
          Nat.testBit_lor, get_direction_bit_eq, Nat.testBit_two_pow]
        have hne : nbr (x, y) d ≠ (x, y) := nbr_ne_self (x, y) d
        simp only [h1, h2, hne, Fin.ext_iff, decide_eq_true_eq, Bool.or_eq_true]
        tauto
      · rw [Function.update_noteq hc2]
        by_cases hc1 : c = (x, y)
        · subst hc1
          rw [Function.update_same, Nat.testBit_lor, get_direction_bit_eq,
            Nat.testBit_two_pow]
          simp only [h1, hc2, Fin.ext_iff, decide_eq_true_eq, Bool.or_eq_true]
          tauto
        · rw [Function.update_noteq hc1]
          simp [hc1, hc2]
    · simp only [set_wall, if_pos h1, if_neg h2]
      by_cases hc1 : c = (x, y)
      · subst hc1
        rw [Function.update_same, Nat.testBit_lor, get_direction_bit_eq,
          Nat.testBit_two_pow]
        simp only [h1, h2, Fin.ext_iff, decide_eq_true_eq, Bool.or_eq_true]
        tauto
      · rw [Function.update_noteq hc1]
        simp [hc1, h2]
  · simp only [set_wall, if_neg h1]
    simp [h1]

/-- Wall symmetry: between any two in-bounds neighboring cells, the two
facing wall bits agree. -/
def SymWalls (m : Mouse) : Prop :=
  ∀ (c : Cell) (d : Fin 4), inBounds m c → inBounds m (nbr c d) →
    is_wall m c.1 c.2 d = is_wall m (nbr c d).1 (nbr c d).2 (d + 2)

/-- The freshly initialized maze is wall-symmetric: between two in-bounds
neighbors neither facing boundary bit is set. -/
theorem mkFresh_symWalls (W H : ℤ) : SymWalls (mkFresh W H) := by
  intro c d hc hn
  rw [is_wall_inb _ _ _ _ hc, is_wall_inb _ _ _ _ hn]
  simp only [Prod.mk.eta]
  rw [mkFresh_walls_testBit, mkFresh_walls_testBit, Bool.eq_iff_iff,
    boundaryBits_testBit_iff, boundaryBits_testBit_iff]
  have hcb : 0 ≤ c.1 ∧ c.1 < W ∧ 0 ≤ c.2 ∧ c.2 < H := hc
  have hnb : 0 ≤ (nbr c d).1 ∧ (nbr c d).1 < W ∧ 0 ≤ (nbr c d).2 ∧
      (nbr c d).2 < H := hn
  clear hc hn
  fin_cases d <;>
    simp only [nbr, get_direction_offset] at hnb ⊢ <;>
    simp <;> omega

theorem fin4_add_two_two (f : Fin 4) : f + 2 + 2 = f := by
  fin_cases f <;> rfl

theorem fin4_self_eq_add_two_two (f : Fin 4) : f = f + 2 + 2 := by
  fin_cases f <;> rfl

/-- `set_wall` preserves wall symmetry, whatever its arguments. -/
theorem set_wall_symWalls (m : Mouse) (x y : ℤ) (d : Fin 4)
    (h : SymWalls m) : SymWalls (set_wall m x y d) := by
  intro c e hc hn
  have hc' : inBounds m c := by
    simpa [inBounds] using hc
  have hn' : inBounds m (nbr c e) := by
    simpa [inBounds] using hn
  rw [is_wall_inb _ _ _ _ hc, is_wall_inb _ _ _ _ hn]
  simp only [Prod.mk.eta]
  rw [Bool.eq_iff_iff, set_wall_testBit_iff, set_wall_testBit_iff]
  have hold := h c e hc' hn'
  have holdBit :
      (m.walls c).testBit e.val = true ↔
        (m.walls (nbr c e)).testBit (e + 2).val = true := by
    rw [is_wall_inb _ _ _ _ hc', is_wall_inb _ _ _ _ hn'] at hold
    simp only [Prod.mk.eta] at hold
    rw [hold]
  constructor
  · rintro (hb | ⟨hb1, rfl, rfl⟩ | ⟨hb1, hb2, rfl, rfl⟩)
    · exact Or.inl (holdBit.mp hb)
    · exact Or.inr (Or.inr ⟨hb1, by simpa [inBounds] using hn', rfl, rfl⟩)
    · exact Or.inr (Or.inl ⟨hb1, nbr_nbr_opp (x, y) d, fin4_add_two_two d⟩)
  · rintro (hb | ⟨hb1, hbc, hbe⟩ | ⟨hb1, hb2, hbc, hbe⟩)
    · exact Or.inl (holdBit.mpr hb)
    · -- the far side carries the primary bit: this side is the adjacent cell
      have he : e = d + 2 := by
        rw [← hbe]
        exact fin4_self_eq_add_two_two e
      have hcc : c = nbr (x, y) d := by
        rw [← hbe, ← hbc, nbr_nbr_opp]
      refine Or.inr (Or.inr ⟨hb1, ?_, hcc, he⟩)
      rw [← hcc]
      exact hc'
    · -- the far side carries the adjacent bit: this side is the primary cell
      have he : e = d := by
        have h2 := fin4_self_eq_add_two_two e
        rw [hbe] at h2
        rw [h2]
        exact fin4_add_two_two d
      subst he
      exact Or.inr (Or.inl ⟨hb1, nbr_inj _ _ _ hbc, rfl⟩)


/-- A fresh maze followed by an arbitrary sequence of `set_wall` calls. -/
def wallsAfterCalls (W H : ℤ) (calls : List (Cell × Fin 4)) : Mouse :=
  calls.foldl (fun m pc => set_wall m pc.1.1 pc.1.2 pc.2) (mkFresh W H)

theorem foldl_set_wall_symWalls (calls : List (Cell × Fin 4)) :
    ∀ m : Mouse, SymWalls m →
      SymWalls (calls.foldl (fun m' pc => set_wall m' pc.1.1 pc.1.2 pc.2) m) := by
  induction calls with
  | nil => intro m hm; exact hm
  | cons pc rest ih =>
    intro m hm
    exact ih _ (set_wall_symWalls m pc.1.1 pc.1.2 pc.2 hm)

/-- C2: starting from a freshly initialized maze, after any sequence of
`set_wall` calls, every pair of in-bounds neighboring cells agrees on the
wall between them (`is_wall c d = is_wall (nbr c d) (opposite d)`); and a
single `set_wall (0,0) East` call makes both `is_wall (0,0) East` and
`is_wall (1,0) West` true. -/
theorem set_wall_symmetry (W H : ℤ) (calls : List (Cell × Fin 4))
    (hW : 2 ≤ W) (hH : 1 ≤ H) :
    SymWalls (wallsAfterCalls W H calls) ∧
      is_wall (set_wall (mkFresh W H) 0 0 1) 0 0 1 = true ∧
      is_wall (set_wall (mkFresh W H) 0 0 1) 1 0 3 = true := by
  have hb : (0 : ℤ) ≤ 0 ∧ (0 : ℤ) < W ∧ (0 : ℤ) ≤ 0 ∧ (0 : ℤ) < H := by omega
  have hadj : (0 : ℤ) ≤ 1 ∧ (1 : ℤ) < W ∧ (0 : ℤ) ≤ 0 ∧ (0 : ℤ) < H := by omega
  have hnbr : nbr ((0 : ℤ), (0 : ℤ)) 1 = ((1 : ℤ), (0 : ℤ)) := by decide
  refine ⟨foldl_set_wall_symWalls calls (mkFresh W H) (mkFresh_symWalls W H),
    ?_, ?_⟩
  · rw [is_wall_inb _ _ _ _ (by simpa using hb), set_wall_testBit_iff]
    exact Or.inr (Or.inl ⟨by simpa using hb, rfl, rfl⟩)
  · rw [is_wall_inb _ _ _ _ (by simpa using hadj), set_wall_testBit_iff]
    refine Or.inr (Or.inr ⟨by simpa using hb, ?_, ?_, by decide⟩)
    · rw [hnbr]
      simpa using hadj
    · rw [hnbr]

/-- Witness for `set_wall_symmetry` at a concrete 16×16 maze with one call. -/
theorem set_wall_symmetry_witness :
    (2 : ℤ) ≤ 16 ∧ (1 : ℤ) ≤ 16 ∧
      (SymWalls (wallsAfterCalls 16 16 [(((0 : ℤ), (0 : ℤ)), 1)]) ∧
        is_wall (set_wall (mkFresh 16 16) 0 0 1) 0 0 1 = true ∧
        is_wall (set_wall (mkFresh 16 16) 0 0 1) 1 0 3 = true) :=
  ⟨by decide, by decide,
    set_wall_symmetry 16 16 [(((0 : ℤ), (0 : ℤ)), 1)] (by decide) (by decide)⟩

/-! ## Field-preservation facts for the navigation cycle -/

@[simp] theorem floodfill_width (m : Mouse) : (floodfill m).width = m.width := rfl

@[simp] theorem floodfill_height (m : Mouse) : (floodfill m).height = m.height := rfl

@[simp] theorem floodfill_x (m : Mouse) : (floodfill m).x = m.x := rfl

@[simp] theorem floodfill_y (m : Mouse) : (floodfill m).y = m.y := rfl

@[simp] theorem floodfill_direction (m : Mouse) :
    (floodfill m).direction = m.direction := rfl

@[simp] theorem floodfill_goals (m : Mouse) : (floodfill m).goals = m.goals := rfl

@[simp] theorem floodfill_phase (m : Mouse) : (floodfill m).phase = m.phase := rfl

@[simp] theorem floodfill_visited (m : Mouse) :
    (floodfill m).visited = m.visited := rfl

@[simp] theorem scan_walls_width (m : Mouse) (inp : CycleInput) :
    (scan_walls m inp).width = m.width := by
  simp [scan_walls, apply_ite Mouse.width]

@[simp] theorem scan_walls_height (m : Mouse) (inp : CycleInput) :
    (scan_walls m inp).height = m.height := by
  simp [scan_walls, apply_ite Mouse.height]

@[simp] theorem scan_walls_x (m : Mouse) (inp : CycleInput) :
    (scan_walls m inp).x = m.x := by
  simp [scan_walls, apply_ite Mouse.x]

@[simp] theorem scan_walls_y (m : Mouse) (inp : CycleInput) :
    (scan_walls m inp).y = m.y := by
  simp [scan_walls, apply_ite Mouse.y]

@[simp] theorem scan_walls_direction (m : Mouse) (inp : CycleInput) :
    (scan_walls m inp).direction = m.direction := by
  simp [scan_walls, apply_ite Mouse.direction]

@[simp] theorem scan_walls_goals (m : Mouse) (inp : CycleInput) :
    (scan_walls m inp).goals = m.goals := by
  simp [scan_walls, apply_ite Mouse.goals]

@[simp] theorem scan_walls_phase (m : Mouse) (inp : CycleInput) :
    (scan_walls m inp).phase = m.phase := by
  simp [scan_walls, apply_ite Mouse.phase]

@[simp] theorem scan_walls_visited (m : Mouse) (inp : CycleInput) :
    (scan_walls m inp).visited = m.visited := by
  simp [scan_walls, apply_ite Mouse.visited]

/-- Scanning then flooding does not change whether the robot is at a goal. -/
theorem at_goal_scan_flood (m : Mouse) (inp : CycleInput) :
    at_goal (floodfill (scan_walls m inp)) = at_goal m := by
  simp [at_goal]

/-! ## The selection loops only pick unblocked, in-bounds moves -/

theorem selectDir_foldl_inv (m : Mouse) (score : Cell → WithTop ℤ)
    (L : List (Fin 4)) :
    ∀ acc : Option (Fin 4) × WithTop ℤ,
      (∀ e, acc.1 = some e →
        is_wall m m.x m.y e = false ∧ inBounds m (nbr (m.x, m.y) e)) →
      ∀ d, (L.foldl
          (fun acc' d' =>
            if is_wall m m.x m.y d' then acc'
            else
              let n := nbr (m.x, m.y) d'
              if 0 ≤ n.1 ∧ n.1 < m.width ∧ 0 ≤ n.2 ∧ n.2 < m.height then
                if score n < acc'.2 then (some d', score n) else acc'
              else acc') acc).1 = some d →
        is_wall m m.x m.y d = false ∧ inBounds m (nbr (m.x, m.y) d) := by
  induction L with
  | nil => intro acc hacc d hd; exact hacc d hd
  | cons e L ih =>
    intro acc hacc d
    simp only [List.foldl_cons]
    apply ih
    intro f hf
    by_cases hw : is_wall m m.x m.y e
    · rw [if_pos hw] at hf
      exact hacc f hf
    · rw [if_neg hw] at hf
      by_cases hb : 0 ≤ (nbr (m.x, m.y) e).1 ∧ (nbr (m.x, m.y) e).1 < m.width ∧
          0 ≤ (nbr (m.x, m.y) e).2 ∧ (nbr (m.x, m.y) e).2 < m.height
      · rw [if_pos hb] at hf
        by_cases hs : score (nbr (m.x, m.y) e) < acc.2
        · rw [if_pos hs] at hf
          obtain rfl : e = f := by simpa using hf
          exact ⟨by simpa using hw, hb⟩
        · rw [if_neg hs] at hf
          exact hacc f hf
      · rw [if_neg hb] at hf
        exact hacc f hf

/-- Any direction returned by a selection loop is unblocked and leads to an
in-bounds cell. -/
theorem selectDir_some (m : Mouse) (score : Cell → WithTop ℤ) (d : Fin 4)
    (h : selectDir m score = some d) :
    is_wall m m.x m.y d = false ∧ inBounds m (nbr (m.x, m.y) d) := by
  refine selectDir_foldl_inv m score dirList (none, ⊤) ?_ d h
  intro e he
  cases he

/-- Any direction returned by the decision step of `run` is unblocked and
leads to an in-bounds cell. -/
theorem chooseDir_some (m : Mouse) (d : Fin 4) (h : chooseDir m = some d) :
    is_wall m m.x m.y d = false ∧ inBounds m (nbr (m.x, m.y) d) := by
  unfold chooseDir at h
  split_ifs at h
  · exact selectDir_some m (exploreScore m) d h
  · exact selectDir_some m _ d h

/-! ## Cycle branch analysis -/

/-- A cycle whose `wasReset` query answers `true` takes the reset branch:
state is reset, the loop continues, and no motion command is issued. -/
theorem cycle_reset (m : Mouse) (inp : CycleInput) (sc : ℕ)
    (h : inp.wasReset = true) :
    cycle m inp sc = (resetState m, .continueRun, []) := by
  simp [cycle, h]

theorem turn_to_direction_fst (a b : Fin 4) : (turn_to_direction a b).1 = b := by
  revert a b; decide

/-- Where the robot can be after one cycle: at the start cell (reset), where
it already was, or one step along a direction chosen by the decision step. -/
theorem cycle_pos_cases (m : Mouse) (inp : CycleInput) (sc : ℕ) :
    (cycle m inp sc).1.width = m.width ∧ (cycle m inp sc).1.height = m.height ∧
      ((cycle m inp sc).1.x = 0 ∧ (cycle m inp sc).1.y = 0 ∨
        (cycle m inp sc).1.x = m.x ∧ (cycle m inp sc).1.y = m.y ∨
        ∃ d, chooseDir (floodfill (scan_walls m inp)) = some d ∧
          (cycle m inp sc).1.x = (nbr (m.x, m.y) d).1 ∧
          (cycle m inp sc).1.y = (nbr (m.x, m.y) d).2) := by
  by_cases hr : inp.wasReset
  · rw [cycle_reset m inp sc hr]
    exact ⟨rfl, rfl, Or.inl ⟨rfl, rfl⟩⟩
  · by_cases hg : at_goal (floodfill (scan_walls m inp)) = true
    · cases hp : (floodfill (scan_walls m inp)).phase
      · simp only [cycle, hr, Bool.false_eq_true, if_false, hg, if_true, hp]
        exact ⟨by simp, by simp, Or.inr (Or.inl ⟨by simp, by simp⟩)⟩
      · simp only [cycle, hr, Bool.false_eq_true, if_false, hg, if_true, hp]
        exact ⟨by simp, by simp, Or.inr (Or.inl ⟨by simp, by simp⟩)⟩
    · rw [Bool.not_eq_true] at hg
      cases hc : chooseDir (floodfill (scan_walls m inp)) with
      | none =>
        simp only [cycle, hr, Bool.false_eq_true, if_false, hg, hc]
        exact ⟨by simp, by simp, Or.inr (Or.inl ⟨by simp, by simp⟩)⟩
      | some d =>
        simp only [cycle, hr, Bool.false_eq_true, if_false, hg, hc]
        refine ⟨?_, ?_, Or.inr (Or.inr ⟨d, rfl, ?_, ?_⟩)⟩ <;>
          split_ifs <;>
          simp [move_forward, nbr, turn_to_direction_fst]

/-- C10: the decision step only returns directions that are unblocked and
whose target cell is in bounds, and consequently every navigation cycle
keeps the robot's recorded position inside the grid. -/
theorem cycle_preserves_in_bounds (m : Mouse) (inp : CycleInput) (sc : ℕ)
    (h : inBounds m (m.x, m.y)) :
    (∀ score d, selectDir m score = some d →
        is_wall m m.x m.y d = false ∧ inBounds m (nbr (m.x, m.y) d)) ∧
      inBounds (cycle m inp sc).1
        ((cycle m inp sc).1.x, (cycle m inp sc).1.y) := by
  refine ⟨fun score d hd => selectDir_some m score d hd, ?_⟩
  obtain ⟨hw, hh, hcase⟩ := cycle_pos_cases m inp sc
  show 0 ≤ (cycle m inp sc).1.x ∧ (cycle m inp sc).1.x < (cycle m inp sc).1.width ∧
    0 ≤ (cycle m inp sc).1.y ∧ (cycle m inp sc).1.y < (cycle m inp sc).1.height
  rw [hw, hh]
  obtain ⟨h1, h2, h3, h4⟩ := h
  rcases hcase with ⟨hx, hy⟩ | ⟨hx, hy⟩ | ⟨d, hd, hx, hy⟩
  · rw [hx, hy]; omega
  · rw [hx, hy]; exact ⟨h1, h2, h3, h4⟩
  · rw [hx, hy]
    have := (chooseDir_some (floodfill (scan_walls m inp)) d hd).2
    simpa [inBounds] using this

/-- Witness for `cycle_preserves_in_bounds` on a fresh 3×3 maze. -/
theorem cycle_preserves_in_bounds_witness :
    inBounds (mkFresh 3 3) ((mkFresh 3 3).x, (mkFresh 3 3).y) ∧
      inBounds (cycle (mkFresh 3 3) ⟨false, false, false, false, false⟩ 1).1
        ((cycle (mkFresh 3 3) ⟨false, false, false, false, false⟩ 1).1.x,
          (cycle (mkFresh 3 3) ⟨false, false, false, false, false⟩ 1).1.y) :=
  ⟨by decide,
    (cycle_preserves_in_bounds (mkFresh 3 3) ⟨false, false, false, false, false⟩ 1
      (by decide)).2⟩

/-! ## C3: goal handling -/

/-- C3: in a non-reset cycle whose current cell is a goal cell, an exploring
robot switches to the speed-run phase, retargets the goal set to the single
start cell, and issues no motion command while the loop continues; a
speed-running robot ends the loop (run complete). -/
theorem goal_cycle_phase_transition (m : Mouse) (inp : CycleInput) (sc : ℕ)
    (h1 : inp.wasReset = false) (h2 : at_goal m = true) :
    (m.phase = .explore →
      (cycle m inp sc).2.1 = .continueRun ∧
        (cycle m inp sc).1.phase = .speed_run ∧
        (cycle m inp sc).1.goals = [((0 : ℤ), (0 : ℤ))] ∧
        (cycle m inp sc).2.2 = []) ∧
      (m.phase = .speed_run →
        (cycle m inp sc).2.1 = .speedComplete ∧ (cycle m inp sc).2.2 = []) := by
  have hg : at_goal (floodfill (scan_walls m inp)) = true := by
    rw [at_goal_scan_flood]; exact h2
  constructor
  · intro hp
    simp [cycle, h1, hg, hp]
  · intro hp
    simp [cycle, h1, hg, hp]

/-- Witness for `goal_cycle_phase_transition`: a 1×1 maze starts on its own
goal cell, so the first quiet cycle performs the phase switch. -/
theorem goal_cycle_phase_transition_witness :
    (⟨false, false, false, false, false⟩ : CycleInput).wasReset = false ∧
      at_goal (mkFresh 1 1) = true ∧
      ((cycle (mkFresh 1 1) ⟨false, false, false, false, false⟩ 1).2.1 =
          .continueRun ∧
        (cycle (mkFresh 1 1) ⟨false, false, false, false, false⟩ 1).1.phase =
          .speed_run ∧
        (cycle (mkFresh 1 1) ⟨false, false, false, false, false⟩ 1).1.goals =
          [((0 : ℤ), (0 : ℤ))] ∧
        (cycle (mkFresh 1 1) ⟨false, false, false, false, false⟩ 1).2.2 = []) :=
  ⟨rfl, by decide,
    (goal_cycle_phase_transition (mkFresh 1 1) ⟨false, false, false, false, false⟩
      1 rfl (by decide)).1 rfl⟩

/-! ## C7: the step-count ceiling -/

/-- A cycle input whose only signal is the external reset. -/
def resetInput : CycleInput := ⟨true, false, false, false, false⟩

theorem runLoop_reset_spin (n : ℕ) :
    ∀ (m : Mouse) (sc : ℕ),
      (runLoop m (List.replicate n resetInput) sc).2 = (sc + n, none) := by
  induction n with
  | zero => intro m sc; simp [runLoop]
  | succ n ih =>
    intro m sc
    rw [List.replicate_succ]
    have hc : cycle m resetInput (sc + 1) = (resetState m, .continueRun, []) :=
      cycle_reset m resetInput (sc + 1) rfl
    show (runLoop m (resetInput :: List.replicate n resetInput) sc).2 = _
    rw [runLoop, hc]
    rw [ih (resetState m) (sc + 1)]
    have : sc + 1 + n = sc + (n + 1) := by omega
    rw [this]

/-- C7 counterexample: with the reset query answering `true` on every cycle,
the loop runs 10005 full cycles (step count 10005 > 10000) without ever
terminating — the reset branch `continue`s before the step-count safety
check, so the ceiling does not bound the number of cycles. -/
theorem step_ceiling_bypassed_by_reset :
    (runLoop (mkFresh 2 2) (List.replicate 10005 resetInput) 0).2 =
      (10005, none) := by
  rw [runLoop_reset_spin 10005 (mkFresh 2 2) 0]

/-- C7 amended: the 10,000-step ceiling is enforced only by cycles that reach
the end-of-body check — any non-reset cycle that is not the explore-phase
goal hand-off terminates the loop once the step count exceeds 10,000 (by the
ceiling after a move, by run completion, or by the no-move failure).  Cycles
taking the reset branch or the explore-phase goal branch `continue` before
the check and are not bounded by it. -/
theorem step_ceiling_normal_move (m : Mouse) (inp : CycleInput) (sc : ℕ)
    (h1 : inp.wasReset = false) (h2 : sc > 10000)
    (h3 : ¬(at_goal m = true ∧ m.phase = .explore)) :
    (cycle m inp sc).2.1 ≠ .continueRun := by
  by_cases hg : at_goal (floodfill (scan_walls m inp)) = true
  · have hgm : at_goal m = true := by rwa [at_goal_scan_flood] at hg
    cases hp : m.phase
    · exact absurd ⟨hgm, hp⟩ h3
    · simp [cycle, h1, hg, hp]
  · rw [Bool.not_eq_true] at hg
    cases hc : chooseDir (floodfill (scan_walls m inp)) with
    | none =>
      simp [cycle, h1, hg, hc]
    | some d =>
      simp only [cycle, h1, Bool.false_eq_true, if_false, hg, hc]
      rw [if_pos h2]
      simp

/-- Witness for `step_ceiling_normal_move`: a quiet cycle on a fresh 3×3 maze
at step count 10001 does terminate the loop. -/
theorem step_ceiling_normal_move_witness :
    (⟨false, false, false, false, false⟩ : CycleInput).wasReset = false ∧
      10001 > 10000 ∧
      ¬(at_goal (mkFresh 3 3) = true ∧ (mkFresh 3 3).phase = .explore) ∧
      (cycle (mkFresh 3 3) ⟨false, false, false, false, false⟩ 10001).2.1 ≠
        .continueRun :=
  ⟨rfl, by omega, by decide,
    step_ceiling_normal_move (mkFresh 3 3) ⟨false, false, false, false, false⟩
      10001 rfl (by omega) (by decide)⟩

/-! ## C8: reset idempotence and the flood map -/

/-- C8 counterexample: run one quiet cycle on a fresh 3×3 maze (its flood
fill writes distance 2 at `(0, 0)`), then a reset cycle.  The reset state
disagrees with a freshly constructed controller on the flood-value map —
`__init__` zeroes it, the reset branch leaves the stale values in place. -/
theorem reset_not_fresh_flood :
    (cycle (cycle (mkFresh 3 3) ⟨false, false, false, false, false⟩ 1).1
          resetInput 2).1.flood_values ((0 : ℤ), (0 : ℤ)) ≠
      (mkFresh 3 3).flood_values ((0 : ℤ), (0 : ℤ)) := by
  decide

/-- C8 amended: the reset handling is idempotent (two consecutive reset
cycles give the state of one), and the reset state agrees with a freshly
constructed controller of the same dimensions on position, heading, phase,
visited set, walls and goal set — every component except the flood-value
map, which reset leaves untouched. -/
theorem reset_idempotent_fields (m : Mouse) (inp inp' : CycleInput)
    (sc sc' : ℕ) (h : inp.wasReset = true) (h' : inp'.wasReset = true) :
    (cycle (cycle m inp sc).1 inp' sc').1 = (cycle m inp sc).1 ∧
      resetState (resetState m) = resetState m ∧
      (resetState m).x = (mkFresh m.width m.height).x ∧
      (resetState m).y = (mkFresh m.width m.height).y ∧
      (resetState m).direction = (mkFresh m.width m.height).direction ∧
      (resetState m).phase = (mkFresh m.width m.height).phase ∧
      (resetState m).visited = (mkFresh m.width m.height).visited ∧
      (resetState m).walls = (mkFresh m.width m.height).walls ∧
      (resetState m).goals = (mkFresh m.width m.height).goals := by
  rw [cycle_reset m inp sc h, cycle_reset (resetState m) inp' sc' h']
  exact ⟨rfl, rfl, rfl, rfl, rfl, rfl, rfl, rfl, rfl⟩

/-- Witness for `reset_idempotent_fields` at a concrete state. -/
theorem reset_idempotent_fields_witness :
    resetInput.wasReset = true ∧
      (cycle (cycle (mkFresh 3 3) resetInput 1).1 resetInput 2).1 =
        (cycle (mkFresh 3 3) resetInput 1).1 :=
  ⟨rfl, (reset_idempotent_fields (mkFresh 3 3) resetInput resetInput 1 2
    rfl rfl).1⟩

/-! ## C1: flood-fill correctness.  A `stepEdge m c d n` is one legal hop:
no wall at `c` toward `d`, and the in-bounds neighbor `n`. -/

def stepEdge (m : Mouse) (c : Cell) (d : Fin 4) (n : Cell) : Prop :=
  is_wall m c.1 c.2 d = false ∧ n = nbr c d ∧ inBounds m n

/-- A wall-respecting walk of length `k` from some goal cell out to `c`
(the direction the flood-fill wavefront travels). -/
inductive WalkFrom (m : Mouse) (G : List Cell) : Cell → ℕ → Prop where
  | goal {c : Cell} (h : c ∈ G) : WalkFrom m G c 0
  | step {c : Cell} {d : Fin 4} {n : Cell} {k : ℕ} (hw : WalkFrom m G c k)
      (he : stepEdge m c d n) : WalkFrom m G n (k + 1)

/-- A wall-respecting walk of length `k` from `c` to some goal cell
(the claim's notion of a path from a cell to the nearest goal). -/
inductive WalkTo (m : Mouse) (G : List Cell) : Cell → ℕ → Prop where
  | goal {c : Cell} (h : c ∈ G) : WalkTo m G c 0
  | step {c : Cell} {d : Fin 4} {n : Cell} {k : ℕ} (he : stepEdge m c d n)
      (hw : WalkTo m G n k) : WalkTo m G c (k + 1)

theorem stepEdge_symm (m : Mouse) (hsym : SymWalls m) {c : Cell} {d : Fin 4}
    {n : Cell} (h : stepEdge m c d n) : stepEdge m n (d + 2) c := by
  obtain ⟨hw, rfl, hinb⟩ := h
  have hcb : inBounds m c := inb_of_is_wall_false m c.1 c.2 d hw
  refine ⟨?_, (nbr_nbr_opp c d).symm, hcb⟩
  rw [← hsym c d hcb hinb]
  exact hw

/-- With symmetric walls, walks from the goals and walks to the goals are
the same thing. -/
theorem walkFrom_iff_walkTo (m : Mouse) (G : List Cell) (hsym : SymWalls m)
    (c : Cell) (n : ℕ) : WalkFrom m G c n ↔ WalkTo m G c n := by
  constructor
  · intro h
    induction h with
    | goal hg => exact WalkTo.goal hg
    | step hw he ih => exact WalkTo.step (stepEdge_symm m hsym he) ih
  · intro h
    induction h with
    | goal hg => exact WalkFrom.goal hg
    | step he hw ih => exact WalkFrom.step ih (stepEdge_symm m hsym he)

/-! ### The initial flood state -/

theorem ffInit_foldl_flood (G : List Cell) :
    ∀ (st : FFState) (c : Cell),
      (G.foldl (fun st g => ⟨Function.update st.flood g 0, st.queue ++ [g]⟩)
          st).flood c =
        if c ∈ G then 0 else st.flood c := by
  induction G with
  | nil => intro st c; simp
  | cons g G ih =>
    intro st c
    rw [List.foldl_cons, ih]
    by_cases hG : c ∈ G
    · simp [hG]
    · by_cases hg : c = g
      · subst hg
        simp [hG, Function.update_same]
      · simp [hG, hg, Function.update_noteq hg]

theorem ffInit_flood (G : List Cell) (c : Cell) :
    (ffInit G).flood c = if c ∈ G then 0 else ⊤ := by
  unfold ffInit
  rw [ffInit_foldl_flood]

theorem ffInit_queue_aux (G : List Cell) :
    ∀ st : FFState,
      (G.foldl (fun st g => ⟨Function.update st.flood g 0, st.queue ++ [g]⟩)
          st).queue = st.queue ++ G := by
  induction G with
  | nil => intro st; simp
  | cons g G ih =>
    intro st
    rw [List.foldl_cons, ih]
    simp

theorem ffInit_queue (G : List Cell) : (ffInit G).queue = G := by
  unfold ffInit
  rw [ffInit_queue_aux]
  rfl

/-! ### Soundness: every finite flood value is witnessed by a walk -/

def FFSound (m : Mouse) (G : List Cell) (st : FFState) : Prop :=
  ∀ (c : Cell) (k : ℕ), st.flood c = WithTop.some k → WalkFrom m G c k

theorem ffInit_sound (m : Mouse) (G : List Cell) : FFSound m G (ffInit G) := by
  intro c k hc
  rw [ffInit_flood] at hc
  by_cases hG : c ∈ G
  · rw [if_pos hG] at hc
    have : k = 0 := by
      have h0 : (0 : WithTop ℕ) = WithTop.some 0 := rfl
      rw [h0] at hc
      exact (WithTop.coe_inj.mp hc.symm)
    subst this
    exact WalkFrom.goal hG
  · rw [if_neg hG] at hc
    cases hc

theorem ffRelax_sound (m : Mouse) (G : List Cell) (cc : Cell)
    (cur : WithTop ℕ) (st : FFState) (d : Fin 4)
    (hsound : FFSound m G st)
    (hcur : ∀ k : ℕ, cur = WithTop.some k → WalkFrom m G cc k) :
    FFSound m G (ffRelax m cc cur st d) := by
  by_cases hw : is_wall m cc.1 cc.2 d = true
  · rw [ffRelax, if_pos hw]
    exact hsound
  · by_cases hcond : 0 ≤ (nbr cc d).1 ∧ (nbr cc d).1 < m.width ∧
        0 ≤ (nbr cc d).2 ∧ (nbr cc d).2 < m.height ∧ cur + 1 < st.flood (nbr cc d)
    · intro c k hc
      have hc' : Function.update st.flood (nbr cc d) (cur + 1) c =
          WithTop.some k := by
        rw [← hc, ffRelax, if_neg hw, if_pos hcond]
      by_cases hcn : c = nbr cc d
      · subst hcn
        rw [Function.update_same] at hc'
        induction cur using WithTop.recTopCoe with
        | top =>
          exfalso
          have : (⊤ : WithTop ℕ) + 1 = ⊤ := by simp
          rw [this] at hc'
          cases hc'
        | coe j =>
          have hk : k = j + 1 := by
            have hji : WithTop.some (j + 1) = WithTop.some k := by
              rw [← hc']
              rfl
            exact (WithTop.coe_inj.mp hji).symm
          subst hk
          refine WalkFrom.step (hcur j rfl) ⟨?_, rfl, ?_⟩
          · simpa using hw
          · exact ⟨hcond.1, hcond.2.1, hcond.2.2.1, hcond.2.2.2.1⟩
      · rw [Function.update_noteq hcn] at hc'
        exact hsound c k hc'
    · rw [ffRelax, if_neg hw, if_neg hcond]
      exact hsound

/-! ### What one relaxation does -/

theorem mem_dirList (d : Fin 4) : d ∈ dirList := by
  fin_cases d <;> decide

theorem ffRelax_cases (m : Mouse) (cc : Cell) (cur : WithTop ℕ) (st : FFState)
    (d : Fin 4) :
    (ffRelax m cc cur st d = st ∧
        (is_wall m cc.1 cc.2 d = false → inBounds m (nbr cc d) →
          st.flood (nbr cc d) ≤ cur + 1)) ∨
      (is_wall m cc.1 cc.2 d = false ∧ inBounds m (nbr cc d) ∧
        cur + 1 < st.flood (nbr cc d) ∧
        ffRelax m cc cur st d =
          ⟨Function.update st.flood (nbr cc d) (cur + 1),
            st.queue ++ [nbr cc d]⟩) := by
  by_cases hw : is_wall m cc.1 cc.2 d = true
  · left
    constructor
    · rw [ffRelax, if_pos hw]
    · intro hw' _
      rw [hw'] at hw
      cases hw
  · by_cases hcond : 0 ≤ (nbr cc d).1 ∧ (nbr cc d).1 < m.width ∧
        0 ≤ (nbr cc d).2 ∧ (nbr cc d).2 < m.height ∧ cur + 1 < st.flood (nbr cc d)
    · right
      refine ⟨by simpa using hw,
        ⟨hcond.1, hcond.2.1, hcond.2.2.1, hcond.2.2.2.1⟩, hcond.2.2.2.2, ?_⟩
      rw [ffRelax, if_neg hw, if_pos hcond]
    · left
      constructor
      · rw [ffRelax, if_neg hw, if_neg hcond]
      · intro _ hinb
        have : ¬(cur + 1 < st.flood (nbr cc d)) := by
          intro hlt
          exact hcond ⟨hinb.1, hinb.2.1, hinb.2.2.1, hinb.2.2.2, hlt⟩
        exact not_lt.mp this

/-! ### Facts about folding the relaxation over a direction list -/

theorem ffFold_queue_sub (m : Mouse) (cc : Cell) (cur : WithTop ℕ)
    (L : List (Fin 4)) :
    ∀ (st : FFState) (q : Cell), q ∈ st.queue →
      q ∈ (L.foldl (ffRelax m cc cur) st).queue := by
  induction L with
  | nil => intro st q hq; exact hq
  | cons d L ih =>
    intro st q hq
    rw [List.foldl_cons]
    rcases ffRelax_cases m cc cur st d with ⟨heq, _⟩ | ⟨_, _, _, heq⟩
    · rw [heq]; exact ih st q hq
    · rw [heq]
      exact ih _ q (List.mem_append_left _ hq)

theorem ffFold_flood_mono (m : Mouse) (cc : Cell) (cur : WithTop ℕ)
    (L : List (Fin 4)) :
    ∀ (st : FFState) (c : Cell),
      (L.foldl (ffRelax m cc cur) st).flood c ≤ st.flood c := by
  induction L with
  | nil => intro st c; exact le_refl _
  | cons d L ih =>
    intro st c
    rw [List.foldl_cons]
    rcases ffRelax_cases m cc cur st d with ⟨heq, _⟩ | ⟨_, _, hlt, heq⟩
    · rw [heq]; exact ih st c
    · rw [heq]
      refine le_trans (ih _ c) ?_
      show Function.update st.flood (nbr cc d) (cur + 1) c ≤ st.flood c
      by_cases hc : c = nbr cc d
      · subst hc
        rw [Function.update_same]
        exact le_of_lt hlt
      · rw [Function.update_noteq hc]

theorem ffFold_flood_cases (m : Mouse) (cc : Cell) (cur : WithTop ℕ)
    (L : List (Fin 4)) :
    ∀ (st : FFState) (c : Cell),
      (L.foldl (ffRelax m cc cur) st).flood c = st.flood c ∨
        ((L.foldl (ffRelax m cc cur) st).flood c = cur + 1 ∧
          c ∈ (L.foldl (ffRelax m cc cur) st).queue) := by
  induction L with
  | nil => intro st c; exact Or.inl rfl
  | cons d L ih =>
    intro st c
    rw [List.foldl_cons]
    rcases ffRelax_cases m cc cur st d with ⟨heq, _⟩ | ⟨_, _, _, heq⟩
    · rw [heq]; exact ih st c
    · rw [heq]
      rcases ih ⟨Function.update st.flood (nbr cc d) (cur + 1),
          st.queue ++ [nbr cc d]⟩ c with hsame | hupd
      · by_cases hc : c = nbr cc d
        · subst hc
          right
          constructor
          · rw [hsame]
            exact Function.update_same _ _ _
          · refine ffFold_queue_sub m cc cur L _ _ ?_
            exact List.mem_append_right _ (List.mem_singleton.mpr rfl)
        · left
          rw [hsame]
          exact Function.update_noteq hc _ _
      · exact Or.inr hupd

theorem ffFold_flood_cc (m : Mouse) (cc : Cell) (cur : WithTop ℕ)
    (L : List (Fin 4)) :
    ∀ st : FFState, (L.foldl (ffRelax m cc cur) st).flood cc = st.flood cc := by
  induction L with
  | nil => intro st; rfl
  | cons d L ih =>
    intro st
    rw [List.foldl_cons]
    rcases ffRelax_cases m cc cur st d with ⟨heq, _⟩ | ⟨_, _, _, heq⟩
    · rw [heq]; exact ih st
    · rw [heq, ih]
      show Function.update st.flood (nbr cc d) (cur + 1) cc = st.flood cc
      exact Function.update_noteq (fun h => nbr_ne_self cc d h.symm) _ _

theorem ffFold_relaxed_dir (m : Mouse) (cc : Cell) (cur : WithTop ℕ)
    (L : List (Fin 4)) :
    ∀ (st : FFState) (d : Fin 4), d ∈ L →
      is_wall m cc.1 cc.2 d = false → inBounds m (nbr cc d) →
      (L.foldl (ffRelax m cc cur) st).flood (nbr cc d) ≤ cur + 1 := by
  induction L with
  | nil => intro st d hd; cases hd
  | cons e L ih =>
    intro st d hd hw hb
    rw [List.foldl_cons]
    rcases List.mem_cons.mp hd with rfl | hdL
    · rcases ffRelax_cases m cc cur st d with ⟨heq, hrel⟩ | ⟨_, _, _, heq⟩
      · rw [heq]
        exact le_trans (ffFold_flood_mono m cc cur L st (nbr cc d)) (hrel hw hb)
      · rw [heq]
        refine le_trans (ffFold_flood_mono m cc cur L _ (nbr cc d)) ?_
        show Function.update st.flood (nbr cc d) (cur + 1) (nbr cc d) ≤ cur + 1
        rw [Function.update_same]
    · rcases ffRelax_cases m cc cur st e with ⟨heq, _⟩ | ⟨_, _, _, heq⟩ <;>
        rw [heq] <;> exact ih _ d hdL hw hb

theorem ffFold_sound (m : Mouse) (G : List Cell) (cc : Cell) (cur : WithTop ℕ)
    (L : List (Fin 4))
    (hcur : ∀ k : ℕ, cur = WithTop.some k → WalkFrom m G cc k) :
    ∀ st : FFState, FFSound m G st →
      FFSound m G (L.foldl (ffRelax m cc cur) st) := by
  induction L with
  | nil => intro st h; exact h
  | cons d L ih =>
    intro st h
    rw [List.foldl_cons]
    exact ih _ (ffRelax_sound m G cc cur st d h hcur)

/-! ### The invariants carried through the main loop -/

/-- Every cell that is not fully relaxed toward its neighbors sits in the
queue awaiting processing. -/
def FFRelaxed (m : Mouse) (st : FFState) : Prop :=
  ∀ (c : Cell) (d : Fin 4), is_wall m c.1 c.2 d = false →
    inBounds m (nbr c d) →
    st.flood (nbr c d) ≤ st.flood c + 1 ∨ c ∈ st.queue

theorem ffInit_relaxed (m : Mouse) (G : List Cell) :
    FFRelaxed m (ffInit G) := by
  intro c d _ _
  by_cases hG : c ∈ G
  · right
    rw [ffInit_queue]
    exact hG
  · left
    have hc : (ffInit G).flood c = ⊤ := by
      rw [ffInit_flood]
      exact if_neg hG
    rw [hc]
    have htop : (⊤ : WithTop ℕ) + 1 = ⊤ := by simp
    rw [htop]
    exact le_top

theorem ffStep_eq_fold (m : Mouse) (st : FFState) (cc : Cell)
    (rest : List Cell) (h : st.queue = cc :: rest) :
    ffStep m st = dirList.foldl (ffRelax m cc (st.flood cc)) ⟨st.flood, rest⟩ := by
  unfold ffStep
  rw [h]

theorem ffStep_relaxed (m : Mouse) (st : FFState) (hrel : FFRelaxed m st) :
    FFRelaxed m (ffStep m st) := by
  cases hq : st.queue with
  | nil =>
    have heq : ffStep m st = st := by unfold ffStep; rw [hq]
    rw [heq]
    exact hrel
  | cons cc rest =>
    rw [ffStep_eq_fold m st cc rest hq]
    intro c d hw hb
    by_cases hcc : c = cc
    · subst hcc
      left
      have h1 := ffFold_relaxed_dir m c (st.flood c) dirList ⟨st.flood, rest⟩
        d (mem_dirList d) hw hb
      have h2 := ffFold_flood_cc m c (st.flood c) dirList ⟨st.flood, rest⟩
      rw [h2]
      exact h1
    · rcases hrel c d hw hb with hle | hqmem
      · rcases ffFold_flood_cases m cc (st.flood cc) dirList ⟨st.flood, rest⟩ c
          with hsame | ⟨_, hin⟩
        · left
          refine le_trans
            (ffFold_flood_mono m cc (st.flood cc) dirList ⟨st.flood, rest⟩
              (nbr c d)) ?_
          rw [hsame]
          exact hle
        · exact Or.inr hin
      · right
        have hcr : c ∈ rest := by
          rw [hq] at hqmem
          rcases List.mem_cons.mp hqmem with h' | h'
          · exact absurd h' hcc
          · exact h'
        exact ffFold_queue_sub m cc (st.flood cc) dirList ⟨st.flood, rest⟩ c hcr

theorem ffStep_sound (m : Mouse) (G : List Cell) (st : FFState)
    (h : FFSound m G st) : FFSound m G (ffStep m st) := by
  cases hq : st.queue with
  | nil =>
    have heq : ffStep m st = st := by unfold ffStep; rw [hq]
    rw [heq]
    exact h
  | cons cc rest =>
    rw [ffStep_eq_fold m st cc rest hq]
    exact ffFold_sound m G cc (st.flood cc) dirList (fun k hk => h cc k hk)
      ⟨st.flood, rest⟩ h

theorem ffStep_flood_mono (m : Mouse) (st : FFState) (c : Cell) :
    (ffStep m st).flood c ≤ st.flood c := by
  cases hq : st.queue with
  | nil =>
    have heq : ffStep m st = st := by unfold ffStep; rw [hq]
    rw [heq]
  | cons cc rest =>
    rw [ffStep_eq_fold m st cc rest hq]
    exact ffFold_flood_mono m cc (st.flood cc) dirList ⟨st.flood, rest⟩ c

theorem ffRun_sound (m : Mouse) (G : List Cell) (fuel : ℕ) :
    ∀ st : FFState, FFSound m G st → FFSound m G (ffRun m fuel st) := by
  induction fuel with
  | zero => intro st h; exact h
  | succ fuel ih =>
    intro st h
    rw [ffRun]
    split_ifs
    · exact h
    · exact ih _ (ffStep_sound m G st h)

theorem ffRun_relaxed (m : Mouse) (fuel : ℕ) :
    ∀ st : FFState, FFRelaxed m st → FFRelaxed m (ffRun m fuel st) := by
  induction fuel with
  | zero => intro st h; exact h
  | succ fuel ih =>
    intro st h
    rw [ffRun]
    split_ifs
    · exact h
    · exact ih _ (ffStep_relaxed m st h)

theorem ffRun_flood_mono (m : Mouse) (fuel : ℕ) :
    ∀ (st : FFState) (c : Cell), (ffRun m fuel st).flood c ≤ st.flood c := by
  induction fuel with
  | zero => intro st c; exact le_refl _
  | succ fuel ih =>
    intro st c
    rw [ffRun]
    split_ifs
    · exact le_refl _
    · exact le_trans (ih _ c) (ffStep_flood_mono m st c)

/-! ### Termination of the flood-fill loop -/

/-- The finite grid of in-bounds cells. -/
def grid (m : Mouse) : Finset Cell :=
  Finset.Icc 0 (m.width - 1) ×ˢ Finset.Icc 0 (m.height - 1)

theorem mem_grid (m : Mouse) (c : Cell) : c ∈ grid m ↔ inBounds m c := by
  rcases c with ⟨a, b⟩
  simp only [grid, Finset.mem_product, Finset.mem_Icc, inBounds]
  omega

/-- A flood value as a natural number, `⊤` collapsed to `0` (only used in
the termination measure). -/
def floodNat (v : WithTop ℕ) : ℕ := WithTop.untop' 0 v

@[simp] theorem floodNat_top : floodNat ⊤ = 0 := rfl

@[simp] theorem floodNat_some (k : ℕ) : floodNat (WithTop.some k) = k := rfl

theorem floodNat_lt {a b : WithTop ℕ} (h : a < b) (hb : b ≠ ⊤) :
    floodNat a < floodNat b := by
  induction a using WithTop.recTopCoe with
  | top => exact absurd h not_top_lt
  | coe i =>
    induction b using WithTop.recTopCoe with
    | top => exact absurd rfl hb
    | coe j => exact WithTop.coe_lt_coe.mp h

/-- Number of still-unreached grid cells. -/
def measureA (m : Mouse) (st : FFState) : ℕ :=
  ((grid m).filter fun c => st.flood c = ⊤).card

/-- Total of the finite flood values over the grid. -/
def measureB (m : Mouse) (st : FFState) : ℕ :=
  (grid m).sum fun c => floodNat (st.flood c)

/-- Strict lexicographic decrease of `(measureA, measureB)`. -/
def MeasDec (m : Mouse) (s t : FFState) : Prop :=
  measureA m s < measureA m t ∨
    (measureA m s = measureA m t ∧ measureB m s < measureB m t)

theorem measDec_trans (m : Mouse) {a b c : FFState} (h1 : MeasDec m a b)
    (h2 : MeasDec m b c) : MeasDec m a c := by
  rcases h1 with h1 | ⟨h1a, h1b⟩ <;> rcases h2 with h2 | ⟨h2a, h2b⟩
  · exact Or.inl (lt_trans h1 h2)
  · exact Or.inl (lt_of_lt_of_eq h1 h2a)
  · exact Or.inl (lt_of_eq_of_lt h1a h2)
  · exact Or.inr ⟨h1a.trans h2a, lt_trans h1b h2b⟩

theorem ffRelax_measure (m : Mouse) (cc : Cell) (cur : WithTop ℕ)
    (st : FFState) (d : Fin 4) :
    ffRelax m cc cur st d = st ∨ MeasDec m (ffRelax m cc cur st d) st := by
  rcases ffRelax_cases m cc cur st d with ⟨heq, _⟩ | ⟨_, hb, hlt, heq⟩
  · exact Or.inl heq
  · right
    rw [heq]
    have hng : nbr cc d ∈ grid m := (mem_grid m (nbr cc d)).mpr hb
    have hfin : cur + 1 ≠ ⊤ := by
      intro htop
      rw [htop] at hlt
      exact not_top_lt hlt
    by_cases hn : st.flood (nbr cc d) = ⊤
    · left
      show (Finset.filter
          (fun c => Function.update st.flood (nbr cc d) (cur + 1) c = ⊤)
          (grid m)).card < _
      have hset : Finset.filter
          (fun c => Function.update st.flood (nbr cc d) (cur + 1) c = ⊤)
          (grid m) =
          (Finset.filter (fun c => st.flood c = ⊤) (grid m)).erase (nbr cc d) := by
        ext c
        by_cases hc : c = nbr cc d
        · subst hc
          simp [Function.update_same, hfin]
        · simp [Function.update_noteq hc, hc]
      rw [hset]
      exact Finset.card_erase_lt_of_mem (Finset.mem_filter.mpr ⟨hng, hn⟩)
    · right
      constructor
      · show (Finset.filter
            (fun c => Function.update st.flood (nbr cc d) (cur + 1) c = ⊤)
            (grid m)).card = _
        congr 1
        ext c
        by_cases hc : c = nbr cc d
        · subst hc
          simp [Function.update_same, hfin, hn]
        · simp [Function.update_noteq hc]
      · show (grid m).sum
            (fun c => floodNat (Function.update st.flood (nbr cc d) (cur + 1) c))
            < _
        apply Finset.sum_lt_sum
        · intro i _
          by_cases hc : i = nbr cc d
          · subst hc
            rw [Function.update_same]
            exact le_of_lt (floodNat_lt hlt hn)
          · rw [Function.update_noteq hc]
        · refine ⟨nbr cc d, hng, ?_⟩
          rw [Function.update_same]
          exact floodNat_lt hlt hn

theorem ffFold_measure (m : Mouse) (cc : Cell) (cur : WithTop ℕ)
    (L : List (Fin 4)) :
    ∀ st : FFState,
      L.foldl (ffRelax m cc cur) st = st ∨
        MeasDec m (L.foldl (ffRelax m cc cur) st) st := by
  induction L with
  | nil => intro st; exact Or.inl rfl
  | cons d L ih =>
    intro st
    rw [List.foldl_cons]
    rcases ffRelax_measure m cc cur st d with heq | hdec
    · rw [heq]
      exact ih st
    · rcases ih (ffRelax m cc cur st d) with heq2 | hdec2
      · rw [heq2]
        exact Or.inr hdec
      · exact Or.inr (measDec_trans m hdec2 hdec)

theorem ffStep_measure (m : Mouse) (st : FFState) (cc : Cell)
    (rest : List Cell) (hq : st.queue = cc :: rest) :
    MeasDec m (ffStep m st) st ∨
      ((ffStep m st).queue.length < st.queue.length ∧
        measureA m (ffStep m st) = measureA m st ∧
        measureB m (ffStep m st) = measureB m st) := by
  rw [ffStep_eq_fold m st cc rest hq]
  rcases ffFold_measure m cc (st.flood cc) dirList ⟨st.flood, rest⟩ with heq | hdec
  · right
    rw [heq]
    refine ⟨?_, rfl, rfl⟩
    rw [hq]
    simp
  · left
    exact hdec

theorem ffRun_terminates_aux (m : Mouse) :
    ∀ (a b q : ℕ) (st : FFState), measureA m st = a → measureB m st = b →
      st.queue.length = q → ∃ fuel, (ffRun m fuel st).queue = [] := by
  intro a
  induction a using Nat.strong_induction_on with
  | _ a ihA =>
    intro b
    induction b using Nat.strong_induction_on with
    | _ b ihB =>
      intro q
      induction q using Nat.strong_induction_on with
      | _ q ihQ =>
        intro st ha hb hq
        cases hqe : st.queue with
        | nil => exact ⟨0, hqe⟩
        | cons cc rest =>
          have hne : ¬st.queue = [] := by rw [hqe]; simp
          have hrun : ∀ fuel, (ffRun m fuel (ffStep m st)).queue = [] →
              (ffRun m (fuel + 1) st).queue = [] := by
            intro fuel hf
            rw [ffRun, if_neg hne]
            exact hf
          rcases ffStep_measure m st cc rest hqe with hdec | ⟨hlen, hA, hB⟩
          · rcases hdec with hA | ⟨hAeq, hB⟩
            · obtain ⟨fuel, hf⟩ := ihA (measureA m (ffStep m st)) (by omega)
                (measureB m (ffStep m st)) (ffStep m st).queue.length
                (ffStep m st) rfl rfl rfl
              exact ⟨fuel + 1, hrun fuel hf⟩
            · obtain ⟨fuel, hf⟩ := ihB (measureB m (ffStep m st)) (by omega)
                (ffStep m st).queue.length (ffStep m st) (by omega) rfl rfl
              exact ⟨fuel + 1, hrun fuel hf⟩
          · obtain ⟨fuel, hf⟩ := ihQ (ffStep m st).queue.length (by omega)
              (ffStep m st) (by omega) (by omega) rfl
            exact ⟨fuel + 1, hrun fuel hf⟩

/-- The flood-fill queue always empties: the loop terminates. -/
theorem ffRun_terminates (m : Mouse) (st : FFState) :
    ∃ fuel, (ffRun m fuel st).queue = [] :=
  ffRun_terminates_aux m (measureA m st) (measureB m st) st.queue.length st
    rfl rfl rfl

/-! ### The completed flood table bounds every walk -/

theorem flood_le_of_relaxed (m : Mouse) (G : List Cell) (st : FFState)
    (hrel : FFRelaxed m st) (hq : st.queue = [])
    (hgoal : ∀ g ∈ G, st.flood g = WithTop.some 0) :
    ∀ (c : Cell) (n : ℕ), WalkFrom m G c n → st.flood c ≤ WithTop.some n := by
  intro c n hw
  induction hw with
  | goal hg =>
    rw [hgoal _ hg]
  | @step c' d' n' k' hw he ih =>
    obtain ⟨hwall, hn, hinb⟩ := he
    subst hn
    rcases hrel c' d' hwall hinb with hle | hmem
    · refine le_trans hle ?_
      have h1 : st.flood c' + 1 ≤ WithTop.some k' + 1 := add_le_add_right ih 1
      exact le_trans h1 (le_of_eq rfl)
    · rw [hq] at hmem
      cases hmem

/-- C1: the flood-fill loop always completes (its queue empties for some
fuel), and once it has: every goal cell has flood value 0; every cell from
which a wall-respecting walk to some goal exists gets the exact length of
the shortest such walk; and every cell with no such walk keeps the
`float('inf')` sentinel.  Walls are assumed symmetric, which `set_wall` and
`initialize_boundaries` guarantee for every maze the program builds. -/
theorem floodfill_shortest_distances (m : Mouse) (G : List Cell)
    (hsym : SymWalls m) :
    (∃ fuel, (ffRun m fuel (ffInit G)).queue = []) ∧
      ∀ fuel, (ffRun m fuel (ffInit G)).queue = [] →
        ((∀ g ∈ G, (ffRun m fuel (ffInit G)).flood g = WithTop.some 0) ∧
          (∀ c : Cell, (∃ n, WalkTo m G c n) →
            ∃ k : ℕ, (ffRun m fuel (ffInit G)).flood c = WithTop.some k ∧
              WalkTo m G c k ∧ ∀ n, WalkTo m G c n → k ≤ n) ∧
          (∀ c : Cell, ¬(∃ n, WalkTo m G c n) →
            (ffRun m fuel (ffInit G)).flood c = ⊤)) := by
  refine ⟨ffRun_terminates m (ffInit G), ?_⟩
  intro fuel hdone
  have hsound : FFSound m G (ffRun m fuel (ffInit G)) :=
    ffRun_sound m G fuel (ffInit G) (ffInit_sound m G)
  have hrel : FFRelaxed m (ffRun m fuel (ffInit G)) :=
    ffRun_relaxed m fuel (ffInit G) (ffInit_relaxed m G)
  have hgz : ∀ g ∈ G, (ffRun m fuel (ffInit G)).flood g = WithTop.some 0 := by
    intro g hg
    have h1 : (ffRun m fuel (ffInit G)).flood g ≤ (ffInit G).flood g :=
      ffRun_flood_mono m fuel (ffInit G) g
    rw [ffInit_flood, if_pos hg] at h1
    exact le_antisymm h1 (zero_le _)
  have hub := flood_le_of_relaxed m G (ffRun m fuel (ffInit G)) hrel hdone hgz
  refine ⟨hgz, ?_, ?_⟩
  · rintro c ⟨n, hwt⟩
    have hwf : WalkFrom m G c n := (walkFrom_iff_walkTo m G hsym c n).mpr hwt
    have hle : (ffRun m fuel (ffInit G)).flood c ≤ WithTop.some n := hub c n hwf
    have hne : (ffRun m fuel (ffInit G)).flood c ≠ ⊤ := by
      intro h
      rw [h] at hle
      exact absurd hle (by simp)
    obtain ⟨k, hk⟩ := WithTop.ne_top_iff_exists.mp hne
    refine ⟨k, hk.symm,
      (walkFrom_iff_walkTo m G hsym c k).mp (hsound c k hk.symm), ?_⟩
    intro n' hwt'
    have h2 := hub c n' ((walkFrom_iff_walkTo m G hsym c n').mpr hwt')
    rw [← hk] at h2
    exact WithTop.coe_le_coe.mp h2
  · intro c hnr
    by_contra hne
    obtain ⟨k, hk⟩ := WithTop.ne_top_iff_exists.mp hne
    exact hnr ⟨k, (walkFrom_iff_walkTo m G hsym c k).mp (hsound c k hk.symm)⟩

/-- Witness for `floodfill_shortest_distances`: a fresh 2×2 maze with the
goal list `[(0, 0)]`. -/
theorem floodfill_shortest_distances_witness :
    SymWalls (mkFresh 2 2) ∧
      ((∃ fuel,
          (ffRun (mkFresh 2 2) fuel (ffInit [((0 : ℤ), (0 : ℤ))])).queue = []) ∧
        ∀ fuel,
          (ffRun (mkFresh 2 2) fuel (ffInit [((0 : ℤ), (0 : ℤ))])).queue = [] →
          ((∀ g ∈ [((0 : ℤ), (0 : ℤ))],
              (ffRun (mkFresh 2 2) fuel
                  (ffInit [((0 : ℤ), (0 : ℤ))])).flood g = WithTop.some 0) ∧
            (∀ c : Cell, (∃ n, WalkTo (mkFresh 2 2) [((0 : ℤ), (0 : ℤ))] c n) →
              ∃ k : ℕ,
                (ffRun (mkFresh 2 2) fuel
                    (ffInit [((0 : ℤ), (0 : ℤ))])).flood c = WithTop.some k ∧
                  WalkTo (mkFresh 2 2) [((0 : ℤ), (0 : ℤ))] c k ∧
                  ∀ n, WalkTo (mkFresh 2 2) [((0 : ℤ), (0 : ℤ))] c n → k ≤ n) ∧
            (∀ c : Cell,
              ¬(∃ n, WalkTo (mkFresh 2 2) [((0 : ℤ), (0 : ℤ))] c n) →
              (ffRun (mkFresh 2 2) fuel
                  (ffInit [((0 : ℤ), (0 : ℤ))])).flood c = ⊤))) :=
  ⟨mkFresh_symWalls 2 2,
    floodfill_shortest_distances (mkFresh 2 2) [((0 : ℤ), (0 : ℤ))]
      (mkFresh_symWalls 2 2)⟩

end Micromouse
